import Mathlib

/-!  Verification of the comment-tree builder and the karma leaderboard of a
social-content backend (Django app `core`): a shallow embedding of
`core/views.py` (`PostDetailAPIView.get`, `LeaderboardAPIView.get`,
`PostLikeAPIView.post`, `CommentLikeAPIView.post`) and of the relational
model in `core/models.py`.

Modelling conventions:
* timestamps are naturals (`created_at.isoformat()` is an order-preserving
  rendering of the timestamp, so ordering facts transfer);
* a database row is a structure; the `select_related('author')` join is
  modelled by carrying the author's id and username on the fetched row;
* Django primary keys are unique and positive; theorems that need this
  state it as an explicit hypothesis;
* the Python dict `nodes` (id -> node, insertion order = query order) is
  modelled by the fetched list itself: with unique ids, `List.find?` by id
  agrees with `dict.get`;
* the mutation-built tree is reconstructed functionally with fuel
  `all.length`: a chain of child links starting from a root visits
  pairwise-distinct rows, so its length is at most the number of rows and
  the fuel is never exhausted on the part of the structure reachable from
  the returned roots. -/

namespace SocialCore

/-- A row of `auth_user`. -/
structure UserRow where
  uid : Nat
  username : String
deriving DecidableEq, Repr

/-- A row of `core_post`, author-joined (`select_related('author')`). -/
structure PostRow where
  pid : Nat
  authorId : Nat
  authorUsername : String
  content : String
  createdAt : Nat
deriving DecidableEq, Repr

/-- A row of `core_comment`, author-joined.  `parent` is the nullable
self-reference `parent_id`. -/
structure CommentRow where
  cid : Nat
  postId : Nat
  authorId : Nat
  authorUsername : String
  parent : Option Nat
  content : String
  createdAt : Nat
deriving DecidableEq, Repr

/-- A row of `core_postlike`. -/
structure PostLikeRow where
  plid : Nat
  userId : Nat
  postId : Nat
  createdAt : Nat
deriving DecidableEq, Repr

/-- A row of `core_commentlike`. -/
structure CommentLikeRow where
  clid : Nat
  userId : Nat
  commentId : Nat
  createdAt : Nat
deriving DecidableEq, Repr

/-- The relational store the two read-only views and the like endpoints
operate on. -/
structure Store where
  users : List UserRow
  posts : List PostRow
  comments : List CommentRow
  postLikes : List PostLikeRow
  commentLikes : List CommentLikeRow
deriving DecidableEq, Repr

/-- Python truthiness of the nullable integer `pid = node['parent']`
(`if pid:`): `None` and `0` are falsy. -/
def truthyId : Option Nat → Bool
  | none => false
  | some p => p != 0

/-- Lookup `nodes.get(pid)` — dictionary lookup by comment id; with unique ids
(primary key) this agrees with Python's dict built in insertion order. -/
def findComment (all : List CommentRow) (p : Nat) : Option CommentRow :=
  all.find? (fun c => c.cid == p)

/-- The parent node looked up by the linking pass: `nodes.get(pid)` when
`pid` is truthy, nothing otherwise. -/
def parentNodeOf (all : List CommentRow) (m : CommentRow) : Option CommentRow :=
  match m.parent with
  | none => none
  | some p => if p = 0 then none else findComment all p

/-- A node of the built tree: the dict materialized per comment in
`PostDetailAPIView.get` (id, author id + username, content, created_at,
parent id, like_count, children). -/
inductive Node : Type where
  | mk (nid : Nat) (authorId : Nat) (authorUsername : String) (content : String)
       (createdAt : Nat) (parent : Option Nat) (likeCount : Nat)
       (children : List Node) : Node
deriving Repr, Inhabited

def Node.nid : Node → Nat
  | .mk i _ _ _ _ _ _ _ => i

def Node.parentId : Node → Option Nat
  | .mk _ _ _ _ _ p _ _ => p

def Node.createdAt : Node → Nat
  | .mk _ _ _ _ t _ _ _ => t

def Node.children : Node → List Node
  | .mk _ _ _ _ _ _ _ ch => ch

/-- Materialize the node dict for one comment row, with its children list. -/
def mkNode (lk : Nat → Nat) (c : CommentRow) (children : List Node) : Node :=
  .mk c.cid c.authorId c.authorUsername c.content c.createdAt c.parent (lk c.cid) children

/-- Functional reconstruction of the linking pass: the children of the node
of `c` are (in query order) the nodes of the comments `m` whose truthy
parent id resolves, via `nodes.get`, to `c`.  `fuel` bounds the recursion
depth; `buildForest` supplies `all.length`, which is enough for everything
reachable from a root (see the header note). -/
def buildNode (all : List CommentRow) (lk : Nat → Nat) : Nat → CommentRow → Node
  | 0, c => mkNode lk c []
  | fuel + 1, c =>
      mkNode lk c
        (((all.filter (fun m => parentNodeOf all m == some c))).map
          (buildNode all lk fuel))

/-- The `root` list of `PostDetailAPIView.get`: the nodes of the comments
with falsy parent id, in query order, each with its nested subtree.
A comment whose parent id is truthy but not a key of `nodes` is appended
nowhere (the linking pass does nothing for it). -/
def buildForest (all : List CommentRow) (lk : Nat → Nat) : List Node :=
  (all.filter (fun c => !truthyId c.parent)).map (buildNode all lk all.length)

/-- Count `c.likes.count()` for a comment id. -/
def likeCountOf (cls : List CommentLikeRow) (cid : Nat) : Nat :=
  (cls.filter (fun l => l.commentId == cid)).length

/-- The comment queryset of `PostDetailAPIView.get`:
`Comment.objects.filter(post=post).order_by('created_at')`. -/
def commentsQs (s : Store) (pk : Nat) : List CommentRow :=
  List.insertionSort (fun a b => a.createdAt ≤ b.createdAt)
    (s.comments.filter (fun c => c.postId == pk))

/-- The response body of `PostDetailAPIView.get`. -/
structure PostDetailResp where
  pid : Nat
  authorId : Nat
  authorUsername : String
  content : String
  createdAt : Nat
  likeCount : Nat
  comments : List Node
deriving Repr, Inhabited

/-- View `PostDetailAPIView.get`: 404 (`none`) when no post has id `pk`,
otherwise the post data with the comment forest. -/
def postDetail (s : Store) (pk : Nat) : Option PostDetailResp :=
  match s.posts.find? (fun p => p.pid == pk) with
  | none => none
  | some p =>
      some { pid := p.pid
             authorId := p.authorId
             authorUsername := p.authorUsername
             content := p.content
             createdAt := p.createdAt
             likeCount := (s.postLikes.filter (fun l => l.postId == p.pid)).length
             comments := buildForest (commentsQs s p.pid) (likeCountOf s.commentLikes) }

-- sanity: the spec's worked example, as the code actually behaves.
-- C1 (root, t=1), C2 (parent=C1, t=2), C3 (t=3, parent id 99 nonexistent).
def exComments : List CommentRow :=
  [ { cid := 1, postId := 10, authorId := 1, authorUsername := "alice",
      parent := none, content := "c1", createdAt := 1 },
    { cid := 2, postId := 10, authorId := 2, authorUsername := "bob",
      parent := some 1, content := "c2", createdAt := 2 },
    { cid := 3, postId := 10, authorId := 1, authorUsername := "alice",
      parent := some 99, content := "c3", createdAt := 3 } ]

example :
    (buildForest exComments (fun _ => 0)).map Node.nid = [1] := by rfl

example :
    ((buildForest exComments (fun _ => 0)).map
      (fun n => (n.nid, n.children.map Node.nid))) = [(1, [2])] := by rfl

/-! ### LeaderboardAPIView.get

The raw SQL unions two weighted event streams
(`(p.author_id, 5, pl.created_at)` from post likes joined to posts and
`(c.author_id, 1, cl.created_at)` from comment likes joined to comments),
filters by `created_at >= cutoff`, joins `auth_user`, groups by
`(u.id, u.username)` summing the weights, orders by karma descending and
truncates to 5 rows. -/

/-- The post-like event stream:
`SELECT p.author_id, 5, pl.created_at FROM core_post p JOIN core_postlike pl
 ON pl.post_id = p.id` — one row per matching (post, like) pair. -/
def postEvents (s : Store) : List (Nat × Int × Nat) :=
  s.postLikes.flatMap (fun pl =>
    (s.posts.filter (fun p => p.pid == pl.postId)).map
      (fun p => (p.authorId, (5 : Int), pl.createdAt)))

/-- The comment-like event stream:
`SELECT c.author_id, 1, cl.created_at FROM core_comment c JOIN
 core_commentlike cl ON cl.comment_id = c.id`. -/
def commentEvents (s : Store) : List (Nat × Int × Nat) :=
  s.commentLikes.flatMap (fun cl =>
    (s.comments.filter (fun c => c.cid == cl.commentId)).map
      (fun c => (c.authorId, (1 : Int), cl.createdAt)))

/-- Union `UNION ALL` of the two streams (duplicates kept). -/
def allEvents (s : Store) : List (Nat × Int × Nat) :=
  postEvents s ++ commentEvents s

/-- The unioned stream after `WHERE t.created_at >= cutoff`. -/
def windowEvents (s : Store) (cutoff : Nat) : List (Nat × Int × Nat) :=
  (allEvents s).filter (fun e => decide (cutoff ≤ e.2.2))

/-- Sum `SUM(t.weight)` for the group of user id `uid`. -/
def karmaOf (s : Store) (cutoff : Nat) (uid : Nat) : Int :=
  (((windowEvents s cutoff).filter (fun e => e.1 == uid)).map (fun e => e.2.1)).sum

/-- One row of the leaderboard response:
`{'user_id': ..., 'username': ..., 'karma': ...}`. -/
structure LBRow where
  userId : Nat
  username : String
  karma : Int
deriving DecidableEq, Repr

/-- The grouped rows before `ORDER BY`/`LIMIT`: the inner join with
`auth_user` keeps exactly the users matching at least one qualifying
event, and `GROUP BY u.id, u.username` with unique user ids makes one
group per such user. -/
def groupRows (s : Store) (cutoff : Nat) : List LBRow :=
  (s.users.filter
      (fun u => (windowEvents s cutoff).any (fun e => e.1 == u.uid))).map
    (fun u => { userId := u.uid, username := u.username,
                karma := karmaOf s cutoff u.uid })

/-- Finally `ORDER BY karma DESC LIMIT 5` (the tie order among equal karma values
is unspecified in SQL; the embedding uses a stable sort, one admissible
realization). -/
def leaderboard (s : Store) (cutoff : Nat) : List LBRow :=
  (List.insertionSort (fun a b => b.karma ≤ a.karma) (groupRows s cutoff)).take 5

/-! ### Like endpoints (PostLikeAPIView.post, CommentLikeAPIView.post)

`PostLike.objects.create` inside `transaction.atomic()`; the storage-level
`UniqueConstraint` on `(user, post)` (resp. `(user, comment)`) raises
`IntegrityError` on a duplicate pair, the transaction rolls back leaving
the store unchanged, and the view answers `400 'Already liked'`.  The
duplicate test below is the constraint check the database performs at
insert time, not an application-level pre-read. -/

inductive LikeResult : Type where
  | liked : LikeResult
  | alreadyLiked : LikeResult
  | notFound : LikeResult
deriving DecidableEq, Repr

/-- View `PostLikeAPIView.post`: 404 when the post is absent; otherwise insert a
`PostLike` row, rejected atomically by the unique constraint when a row
with the same `(user, post)` pair exists. -/
def likePost (s : Store) (userId pk newId now : Nat) : Store × LikeResult :=
  match s.posts.find? (fun p => p.pid == pk) with
  | none => (s, .notFound)
  | some p =>
      if s.postLikes.any (fun l => l.userId == userId && l.postId == p.pid) then
        (s, .alreadyLiked)
      else
        ({ s with postLikes :=
            s.postLikes ++ [{ plid := newId, userId := userId,
                              postId := p.pid, createdAt := now }] },
         .liked)

/-- View `CommentLikeAPIView.post`, same shape on `(user, comment)`. -/
def likeComment (s : Store) (userId pk newId now : Nat) : Store × LikeResult :=
  match s.comments.find? (fun c => c.cid == pk) with
  | none => (s, .notFound)
  | some c =>
      if s.commentLikes.any (fun l => l.userId == userId && l.commentId == c.cid) then
        (s, .alreadyLiked)
      else
        ({ s with commentLikes :=
            s.commentLikes ++ [{ clid := newId, userId := userId,
                                 commentId := c.cid, createdAt := now }] },
         .liked)

/-! ### The two reads in state-passing form (for the frame property) -/

/-- View `PostDetailAPIView.get` as a state-passing operation: it only issues
`SELECT`s, so the store component is returned untouched. -/
def postDetailOp (s : Store) (pk : Nat) : Store × Option PostDetailResp :=
  (s, postDetail s pk)

/-- View `LeaderboardAPIView.get` as a state-passing operation. -/
def leaderboardOp (s : Store) (cutoff : Nat) : Store × List LBRow :=
  (s, leaderboard s cutoff)

-- sanity: 2 post-likes (weight 5) and 3 comment-likes (weight 1) on user 1
-- content inside the window give karma 13.
def exStore : Store :=
  { users := [{ uid := 1, username := "alice" }, { uid := 2, username := "bob" }]
    posts := [{ pid := 10, authorId := 1, authorUsername := "alice",
                content := "p", createdAt := 0 }]
    comments := exComments
    postLikes := [{ plid := 1, userId := 2, postId := 10, createdAt := 5 },
                  { plid := 2, userId := 1, postId := 10, createdAt := 6 }]
    commentLikes := [{ clid := 1, userId := 2, commentId := 1, createdAt := 5 },
                     { clid := 2, userId := 2, commentId := 2, createdAt := 6 },
                     { clid := 3, userId := 1, commentId := 3, createdAt := 7 }] }

example : leaderboard exStore 0 =
    [{ userId := 1, username := "alice", karma := 12 },
     { userId := 2, username := "bob", karma := 1 }] := by rfl

example : karmaOf exStore 6 1 = 6 := by rfl

/-! ### Structure of the built forest -/

mutual

/-- All comment ids occurring in a node's subtree (the node itself first). -/
def Node.ids : Node → List Nat
  | .mk i _ _ _ _ _ _ ch => i :: idsList ch

def idsList : List Node → List Nat
  | [] => []
  | n :: ns => Node.ids n ++ idsList ns

end

mutual

/-- All nodes of a subtree (the node itself included). -/
def Node.subnodes : Node → List Node
  | .mk i a u co t p l ch => .mk i a u co t p l ch :: subnodesList ch

def subnodesList : List Node → List Node
  | [] => []
  | n :: ns => Node.subnodes n ++ subnodesList ns

end

/-- All comment ids of a forest. -/
def forestIds (roots : List Node) : List Nat := idsList roots

@[simp]
theorem nid_mk (i a : Nat) (u co : String) (t : Nat) (p : Option Nat) (l : Nat)
    (ch : List Node) : (Node.mk i a u co t p l ch).nid = i := rfl

@[simp]
theorem parentId_mk (i a : Nat) (u co : String) (t : Nat) (p : Option Nat) (l : Nat)
    (ch : List Node) : (Node.mk i a u co t p l ch).parentId = p := rfl

@[simp]
theorem createdAt_mk (i a : Nat) (u co : String) (t : Nat) (p : Option Nat) (l : Nat)
    (ch : List Node) : (Node.mk i a u co t p l ch).createdAt = t := rfl

@[simp]
theorem children_mk (i a : Nat) (u co : String) (t : Nat) (p : Option Nat) (l : Nat)
    (ch : List Node) : (Node.mk i a u co t p l ch).children = ch := rfl

@[simp]
theorem nid_mkNode (lk : Nat → Nat) (c : CommentRow) (ch : List Node) :
    (mkNode lk c ch).nid = c.cid := rfl

@[simp]
theorem parentId_mkNode (lk : Nat → Nat) (c : CommentRow) (ch : List Node) :
    (mkNode lk c ch).parentId = c.parent := rfl

@[simp]
theorem createdAt_mkNode (lk : Nat → Nat) (c : CommentRow) (ch : List Node) :
    (mkNode lk c ch).createdAt = c.createdAt := rfl

@[simp]
theorem children_mkNode (lk : Nat → Nat) (c : CommentRow) (ch : List Node) :
    (mkNode lk c ch).children = ch := rfl

theorem buildNode_zero (all : List CommentRow) (lk : Nat → Nat) (c : CommentRow) :
    buildNode all lk 0 c = mkNode lk c [] := rfl

theorem buildNode_succ (all : List CommentRow) (lk : Nat → Nat) (fuel : Nat)
    (c : CommentRow) :
    buildNode all lk (fuel + 1) c =
      mkNode lk c
        ((all.filter (fun m => parentNodeOf all m == some c)).map
          (buildNode all lk fuel)) := rfl

@[simp]
theorem nid_buildNode (all : List CommentRow) (lk : Nat → Nat) (fuel : Nat)
    (c : CommentRow) : (buildNode all lk fuel c).nid = c.cid := by
  cases fuel <;> rfl

@[simp]
theorem parentId_buildNode (all : List CommentRow) (lk : Nat → Nat) (fuel : Nat)
    (c : CommentRow) : (buildNode all lk fuel c).parentId = c.parent := by
  cases fuel <;> rfl

@[simp]
theorem createdAt_buildNode (all : List CommentRow) (lk : Nat → Nat) (fuel : Nat)
    (c : CommentRow) : (buildNode all lk fuel c).createdAt = c.createdAt := by
  cases fuel <;> rfl

@[simp]
theorem ids_mk (i a : Nat) (u co : String) (t : Nat) (p : Option Nat) (l : Nat)
    (ch : List Node) : Node.ids (.mk i a u co t p l ch) = i :: idsList ch := rfl

@[simp]
theorem idsList_nil : idsList [] = [] := rfl

@[simp]
theorem idsList_cons (n : Node) (ns : List Node) :
    idsList (n :: ns) = Node.ids n ++ idsList ns := rfl

theorem idsList_append (ns ms : List Node) :
    idsList (ns ++ ms) = idsList ns ++ idsList ms := by
  induction ns with
  | nil => simp
  | cons n ns ih => simp [ih]

theorem mem_idsList {x : Nat} {ns : List Node} :
    x ∈ idsList ns ↔ ∃ n ∈ ns, x ∈ n.ids := by
  induction ns with
  | nil => simp
  | cons n ns ih =>
      simp only [idsList_cons, List.mem_append, ih, List.mem_cons]
      constructor
      · rintro (h | ⟨m, hm, hx⟩)
        · exact ⟨n, Or.inl rfl, h⟩
        · exact ⟨m, Or.inr hm, hx⟩
      · rintro ⟨m, (rfl | hm), hx⟩
        · exact Or.inl hx
        · exact Or.inr ⟨m, hm, hx⟩

@[simp]
theorem subnodes_mk (i a : Nat) (u co : String) (t : Nat) (p : Option Nat) (l : Nat)
    (ch : List Node) :
    Node.subnodes (.mk i a u co t p l ch) = .mk i a u co t p l ch :: subnodesList ch := rfl

@[simp]
theorem subnodesList_nil : subnodesList [] = [] := rfl

@[simp]
theorem subnodesList_cons (n : Node) (ns : List Node) :
    subnodesList (n :: ns) = Node.subnodes n ++ subnodesList ns := rfl

theorem mem_subnodesList {m : Node} {ns : List Node} :
    m ∈ subnodesList ns ↔ ∃ n ∈ ns, m ∈ n.subnodes := by
  induction ns with
  | nil => simp
  | cons n ns ih =>
      simp only [subnodesList_cons, List.mem_append, ih, List.mem_cons]
      constructor
      · rintro (h | ⟨k, hk, hx⟩)
        · exact ⟨n, Or.inl rfl, h⟩
        · exact ⟨k, Or.inr hk, hx⟩
      · rintro ⟨k, (rfl | hk), hx⟩
        · exact Or.inl hx
        · exact Or.inr ⟨k, hk, hx⟩

theorem subnodes_eq (n : Node) : n.subnodes = n :: subnodesList n.children := by
  cases n
  rfl

theorem ids_eq (n : Node) : n.ids = n.nid :: idsList n.children := by
  cases n
  rfl

/-! ### Ancestor chains

`ancIter all k c` follows the linking pass's parent lookup `k` times from
`c`; it is the tool for reasoning about which nodes the returned roots can
reach. -/

def ancIter (all : List CommentRow) : Nat → CommentRow → Option CommentRow
  | 0, c => some c
  | k + 1, c =>
      match parentNodeOf all c with
      | none => none
      | some p => ancIter all k p

@[simp]
theorem ancIter_zero (all : List CommentRow) (c : CommentRow) :
    ancIter all 0 c = some c := rfl

theorem ancIter_succ_of_parent (all : List CommentRow) (k : Nat) {c p : CommentRow}
    (h : parentNodeOf all c = some p) :
    ancIter all (k + 1) c = ancIter all k p := by
  simp [ancIter, h]

theorem ancIter_succ_of_no_parent (all : List CommentRow) (k : Nat) {c : CommentRow}
    (h : parentNodeOf all c = none) :
    ancIter all (k + 1) c = none := by
  simp [ancIter, h]

theorem ancIter_add (all : List CommentRow) (j k : Nat) (c : CommentRow) :
    ancIter all (j + k) c = (ancIter all k c).bind (ancIter all j) := by
  induction k generalizing c with
  | zero => simp
  | succ k ih =>
      cases h : parentNodeOf all c with
      | none =>
          rw [show j + (k + 1) = (j + k) + 1 from rfl,
            ancIter_succ_of_no_parent all _ h, ancIter_succ_of_no_parent all _ h]
          rfl
      | some p =>
          rw [show j + (k + 1) = (j + k) + 1 from rfl,
            ancIter_succ_of_parent all _ h, ancIter_succ_of_parent all _ h, ih]

theorem parentNodeOf_of_not_truthy {all : List CommentRow} {c : CommentRow}
    (h : truthyId c.parent = false) : parentNodeOf all c = none := by
  unfold parentNodeOf
  cases hp : c.parent with
  | none => rfl
  | some p =>
      have : p = 0 := by
        by_contra hne
        simp [truthyId, hp, hne] at h
      simp [this]

/-- Row `c` hangs under the parentless row `r` through a chain of successful
parent lookups. -/
def RootedAt (all : List CommentRow) (r c : CommentRow) : Prop :=
  truthyId r.parent = false ∧ ∃ d, ancIter all d c = some r

theorem rootedAt_self {all : List CommentRow} {r : CommentRow}
    (h : truthyId r.parent = false) : RootedAt all r r :=
  ⟨h, 0, rfl⟩

theorem rootedAt_child {all : List CommentRow} {r c m : CommentRow}
    (hm : parentNodeOf all m = some c) (hr : RootedAt all r c) :
    RootedAt all r m := by
  obtain ⟨ht, d, hd⟩ := hr
  exact ⟨ht, d + 1, by rw [ancIter_succ_of_parent all d hm, hd]⟩

theorem ancIter_mul_loop {all : List CommentRow} {c : CommentRow} {j : Nat}
    (h : ancIter all j c = some c) (n : Nat) : ancIter all (n * j) c = some c := by
  induction n with
  | zero => simp
  | succ n ih =>
      have : (n + 1) * j = j + n * j := by ring
      rw [this, ancIter_add, ih]
      exact h

/-- A rooted row is on no nontrivial lookup loop: its chain ends at a
parentless row, while a loop would run forever. -/
theorem rootedAt_no_loop {all : List CommentRow} {r c : CommentRow} {j : Nat}
    (hr : RootedAt all r c) (h : ancIter all j c = some c) : j = 0 := by
  by_contra hj
  obtain ⟨ht, d, hd⟩ := hr
  have hnone : ancIter all (1 + d) c = none := by
    rw [ancIter_add, hd]
    simp [Option.bind]
    exact ancIter_succ_of_no_parent all 0 (parentNodeOf_of_not_truthy ht)
  have hjpos : 1 ≤ j := Nat.one_le_iff_ne_zero.mpr hj
  have hbig : 1 + d ≤ (d + 1) * j := by
    calc 1 + d = (d + 1) * 1 := by ring
    _ ≤ (d + 1) * j := Nat.mul_le_mul_left _ hjpos
  have hsome : ancIter all ((d + 1) * j) c = some c := ancIter_mul_loop h _
  have : ancIter all (((d + 1) * j - (1 + d)) + (1 + d)) c = none := by
    rw [ancIter_add, hnone]
    rfl
  rw [Nat.sub_add_cancel hbig] at this
  rw [hsome] at this
  exact Option.noConfusion this

/-- Every id in a built subtree is the id of a stored comment with a
successful parent-lookup chain (of length at most the fuel) down to the
subtree's top comment. -/
theorem mem_ids_buildNode {all : List CommentRow} {lk : Nat → Nat} {fuel : Nat}
    {c : CommentRow} {x : Nat} (hc : c ∈ all)
    (hx : x ∈ (buildNode all lk fuel c).ids) :
    ∃ w k, w ∈ all ∧ w.cid = x ∧ k ≤ fuel ∧ ancIter all k w = some c := by
  induction fuel generalizing c with
  | zero =>
      rw [buildNode_zero] at hx
      simp [mkNode] at hx
      exact ⟨c, 0, hc, hx.symm, Nat.le_refl 0, rfl⟩
  | succ fuel ih =>
      rw [buildNode_succ] at hx
      simp only [mkNode, ids_mk, List.mem_cons] at hx
      rcases hx with hx | hx
      · exact ⟨c, 0, hc, hx.symm, Nat.zero_le _, rfl⟩
      · rw [mem_idsList] at hx
        obtain ⟨n, hn, hxn⟩ := hx
        rw [List.mem_map] at hn
        obtain ⟨m, hm, rfl⟩ := hn
        rw [List.mem_filter] at hm
        obtain ⟨hmall, hmc⟩ := hm
        have hmc' : parentNodeOf all m = some c := eq_of_beq hmc
        obtain ⟨w, k, hw, hwx, hk, hanc⟩ := ih hmall hxn
        refine ⟨w, k + 1, hw, hwx, Nat.succ_le_succ hk, ?_⟩
        rw [show k + 1 = 1 + k from Nat.add_comm k 1, ancIter_add, hanc]
        simpa [Option.bind] using ancIter_succ_of_parent all 0 hmc'

/-- Two distinct comments linked under the same rooted parent head disjoint
subtrees: the parent lookup is deterministic, so a shared id would close a
lookup loop. -/
theorem ids_buildNode_disjoint {all : List CommentRow} {lk : Nat → Nat}
    (hN : (all.map CommentRow.cid).Nodup) {fuel : Nat} {c m₁ m₂ r : CommentRow}
    (hm₁ : m₁ ∈ all) (hm₂ : m₂ ∈ all) (hne : m₁ ≠ m₂)
    (h₁ : parentNodeOf all m₁ = some c) (h₂ : parentNodeOf all m₂ = some c)
    (hr : RootedAt all r c) :
    ∀ x, x ∈ (buildNode all lk fuel m₁).ids → x ∉ (buildNode all lk fuel m₂).ids := by
  have key : ∀ m₁' m₂' : CommentRow, m₁' ≠ m₂' →
      parentNodeOf all m₁' = some c → parentNodeOf all m₂' = some c →
      ∀ w k₁ k₂, w ∈ all → k₁ ≤ k₂ →
      ancIter all k₁ w = some m₁' → ancIter all k₂ w = some m₂' → False := by
    intro m₁' m₂' hne' h₁' h₂' w k₁ k₂ _ hk a₁ a₂
    have hstep : ancIter all (k₂ - k₁ + k₁) w = some m₂' := by
      rw [Nat.sub_add_cancel hk]
      exact a₂
    rw [ancIter_add, a₁] at hstep
    simp only [Option.bind] at hstep
    set j := k₂ - k₁ with hj
    rcases Nat.eq_zero_or_pos j with hj0 | hjpos
    · rw [hj0] at hstep
      simp at hstep
      exact hne' hstep
    · have hc2 : ancIter all (1 + j) m₁' = some c := by
        rw [ancIter_add, hstep]
        simpa [Option.bind] using ancIter_succ_of_parent all 0 h₂'
      have hc1 : ancIter all (j + 1) m₁' = ancIter all j c := by
        rw [ancIter_add]
        simp only [Option.bind]
        rw [show ancIter all 1 m₁' = some c by
          simpa using ancIter_succ_of_parent all 0 h₁']
      have hloop : ancIter all j c = some c := by
        rw [← hc1, Nat.add_comm j 1]
        exact hc2
      have := rootedAt_no_loop hr hloop
      omega
  intro x hx₁ hx₂
  obtain ⟨w₁, k₁, hw₁, hwx₁, _, ha₁⟩ := mem_ids_buildNode hm₁ hx₁
  obtain ⟨w₂, k₂, hw₂, hwx₂, _, ha₂⟩ := mem_ids_buildNode hm₂ hx₂
  have hw : w₁ = w₂ :=
    List.inj_on_of_nodup_map hN hw₁ hw₂ (by rw [hwx₁, hwx₂])
  subst hw
  rcases Nat.le_total k₁ k₂ with hk | hk
  · exact key m₁ m₂ hne h₁ h₂ w₁ k₁ k₂ hw₁ hk ha₁ ha₂
  · exact key m₂ m₁ (Ne.symm hne) h₂ h₁ w₁ k₂ k₁ hw₁ hk ha₂ ha₁

/-- The head id of a rooted subtree does not recur below it. -/
theorem nid_not_mem_below {all : List CommentRow} {lk : Nat → Nat}
    (hN : (all.map CommentRow.cid).Nodup) {fuel : Nat} {c m r : CommentRow}
    (hc : c ∈ all) (hm : m ∈ all) (hmc : parentNodeOf all m = some c)
    (hr : RootedAt all r c) :
    c.cid ∉ (buildNode all lk fuel m).ids := by
  intro hx
  obtain ⟨w, k, hw, hwx, _, hanc⟩ := mem_ids_buildNode hm hx
  have hwc : w = c := List.inj_on_of_nodup_map hN hw hc hwx
  subst hwc
  have hloop : ancIter all (1 + k) w = some w := by
    rw [ancIter_add, hanc]
    simpa [Option.bind] using ancIter_succ_of_parent all 0 hmc
  have := rootedAt_no_loop hr hloop
  omega

/-- Applying `idsList` to a list of subtrees with no-duplicate, pairwise-disjoint id
sets has no duplicate. -/
theorem nodup_idsList {ns : List Node}
    (h1 : ∀ n ∈ ns, n.ids.Nodup)
    (h2 : ns.Pairwise (fun a b => ∀ x, x ∈ a.ids → x ∉ b.ids)) :
    (idsList ns).Nodup := by
  induction ns with
  | nil => simp
  | cons n ns ih =>
      rw [idsList_cons, List.nodup_append]
      rw [List.pairwise_cons] at h2
      refine ⟨h1 n (List.mem_cons_self n ns), ih (fun m hm => h1 m (List.mem_cons_of_mem n hm)) h2.2, ?_⟩
      intro x hx hx'
      rw [mem_idsList] at hx'
      obtain ⟨m, hm, hxm⟩ := hx'
      exact h2.1 m hm x hx hxm

/-- No id recurs inside a rooted built subtree. -/
theorem nodup_ids_buildNode {all : List CommentRow} {lk : Nat → Nat}
    (hN : (all.map CommentRow.cid).Nodup) (fuel : Nat) {c r : CommentRow}
    (hc : c ∈ all) (hr : RootedAt all r c) :
    (buildNode all lk fuel c).ids.Nodup := by
  induction fuel generalizing c with
  | zero =>
      rw [buildNode_zero]
      simp [mkNode]
  | succ fuel ih =>
      rw [buildNode_succ]
      simp only [mkNode, ids_mk]
      rw [List.nodup_cons]
      constructor
      · intro hx
        rw [mem_idsList] at hx
        obtain ⟨n, hn, hxn⟩ := hx
        rw [List.mem_map] at hn
        obtain ⟨m, hm, rfl⟩ := hn
        rw [List.mem_filter] at hm
        exact nid_not_mem_below hN hc hm.1 (eq_of_beq hm.2) hr hxn
      · refine nodup_idsList ?_ ?_
        · intro n hn
          rw [List.mem_map] at hn
          obtain ⟨m, hm, rfl⟩ := hn
          rw [List.mem_filter] at hm
          exact ih hm.1 (rootedAt_child (eq_of_beq hm.2) hr)
        · rw [List.pairwise_map]
          have hall : all.Nodup := List.Nodup.of_map _ hN
          have hflt : (all.filter (fun m => parentNodeOf all m == some c)).Pairwise (· ≠ ·) :=
            List.Pairwise.filter _ hall
          refine hflt.imp_of_mem ?_
          intro m₁ m₂ hm₁ hm₂ hne
          rw [List.mem_filter] at hm₁ hm₂
          exact ids_buildNode_disjoint hN hm₁.1 hm₂.1 hne
            (eq_of_beq hm₁.2) (eq_of_beq hm₂.2) hr

/-- Distinct parentless comments head disjoint subtrees. -/
theorem ids_roots_disjoint {all : List CommentRow} {lk : Nat → Nat}
    (hN : (all.map CommentRow.cid).Nodup) {fuel : Nat} {r₁ r₂ : CommentRow}
    (hr₁ : r₁ ∈ all) (hr₂ : r₂ ∈ all) (hne : r₁ ≠ r₂)
    (ht₁ : truthyId r₁.parent = false) (ht₂ : truthyId r₂.parent = false) :
    ∀ x, x ∈ (buildNode all lk fuel r₁).ids → x ∉ (buildNode all lk fuel r₂).ids := by
  have key : ∀ r₁' r₂' : CommentRow, r₁' ≠ r₂' →
      truthyId r₁'.parent = false →
      ∀ w k₁ k₂, w ∈ all → k₁ ≤ k₂ →
      ancIter all k₁ w = some r₁' → ancIter all k₂ w = some r₂' → False := by
    intro r₁' r₂' hne' ht' w k₁ k₂ _ hk a₁ a₂
    have hstep : ancIter all (k₂ - k₁ + k₁) w = some r₂' := by
      rw [Nat.sub_add_cancel hk]
      exact a₂
    rw [ancIter_add, a₁] at hstep
    simp only [Option.bind] at hstep
    rcases Nat.eq_zero_or_pos (k₂ - k₁) with hj0 | hjpos
    · rw [hj0] at hstep
      simp at hstep
      exact hne' hstep
    · obtain ⟨j, hj⟩ := Nat.exists_eq_add_of_lt hjpos
      rw [hj, Nat.zero_add,
        ancIter_succ_of_no_parent all j (parentNodeOf_of_not_truthy ht')] at hstep
      exact Option.noConfusion hstep
  intro x hx₁ hx₂
  obtain ⟨w₁, k₁, hw₁, hwx₁, _, ha₁⟩ := mem_ids_buildNode hr₁ hx₁
  obtain ⟨w₂, k₂, hw₂, hwx₂, _, ha₂⟩ := mem_ids_buildNode hr₂ hx₂
  have hw : w₁ = w₂ :=
    List.inj_on_of_nodup_map hN hw₁ hw₂ (by rw [hwx₁, hwx₂])
  subst hw
  rcases Nat.le_total k₁ k₂ with hk | hk
  · exact key r₁ r₂ hne ht₁ w₁ k₁ k₂ hw₁ hk ha₁ ha₂
  · exact key r₂ r₁ (Ne.symm hne) ht₂ w₁ k₂ k₁ hw₁ hk ha₂ ha₁

/-- With unique comment ids (the primary key), no comment id occurs twice
anywhere in the returned forest. -/
theorem nodup_forestIds {all : List CommentRow} {lk : Nat → Nat}
    (hN : (all.map CommentRow.cid).Nodup) :
    (forestIds (buildForest all lk)).Nodup := by
  unfold forestIds buildForest
  refine nodup_idsList ?_ ?_
  · intro n hn
    rw [List.mem_map] at hn
    obtain ⟨m, hm, rfl⟩ := hn
    rw [List.mem_filter] at hm
    have ht : truthyId m.parent = false := by
      have := hm.2
      simpa using this
    exact nodup_ids_buildNode hN _ hm.1 (rootedAt_self ht)
  · rw [List.pairwise_map]
    have hall : all.Nodup := List.Nodup.of_map _ hN
    have hflt : (all.filter (fun c => !truthyId c.parent)).Pairwise (· ≠ ·) :=
      List.Pairwise.filter _ hall
    refine hflt.imp_of_mem ?_
    intro m₁ m₂ hm₁ hm₂ hne
    rw [List.mem_filter] at hm₁ hm₂
    exact ids_roots_disjoint hN hm₁.1 hm₂.1 hne
      (by simpa using hm₁.2) (by simpa using hm₂.2)

/-- Every node of a rooted built subtree is itself a rooted built subtree
(with no more fuel). -/
theorem subnode_buildNode {all : List CommentRow} {lk : Nat → Nat} {fuel : Nat}
    {c r : CommentRow} (hc : c ∈ all) (hr : RootedAt all r c)
    {n : Node} (hn : n ∈ (buildNode all lk fuel c).subnodes) :
    ∃ fuel' m, m ∈ all ∧ RootedAt all r m ∧ fuel' ≤ fuel ∧
      n = buildNode all lk fuel' m := by
  induction fuel generalizing c with
  | zero =>
      rw [buildNode_zero] at hn
      simp [mkNode] at hn
      exact ⟨0, c, hc, hr, Nat.le_refl 0, by rw [hn]; rfl⟩
  | succ fuel ih =>
      rw [buildNode_succ] at hn
      simp only [mkNode, subnodes_mk, List.mem_cons] at hn
      rcases hn with hn | hn
      · exact ⟨fuel + 1, c, hc, hr, Nat.le_refl _, by rw [hn, buildNode_succ]; rfl⟩
      · rw [mem_subnodesList] at hn
        obtain ⟨k, hk, hnk⟩ := hn
        rw [List.mem_map] at hk
        obtain ⟨m, hm, rfl⟩ := hk
        rw [List.mem_filter] at hm
        obtain ⟨fuel', m', hm', hr', hf', rfl⟩ :=
          ih hm.1 (rootedAt_child (eq_of_beq hm.2) hr) hnk
        exact ⟨fuel', m', hm', hr', Nat.le_succ_of_le hf', rfl⟩

/-- Every node of the returned forest is a rooted built subtree. -/
theorem subnode_forest {all : List CommentRow} {lk : Nat → Nat} {n : Node}
    (hn : n ∈ subnodesList (buildForest all lk)) :
    ∃ fuel m r, m ∈ all ∧ RootedAt all r m ∧ n = buildNode all lk fuel m := by
  rw [mem_subnodesList] at hn
  obtain ⟨k, hk, hnk⟩ := hn
  unfold buildForest at hk
  rw [List.mem_map] at hk
  obtain ⟨m, hm, rfl⟩ := hk
  rw [List.mem_filter] at hm
  have ht : truthyId m.parent = false := by simpa using hm.2
  obtain ⟨fuel', m', hm', hr', _, rfl⟩ :=
    subnode_buildNode hm.1 (rootedAt_self ht) hnk
  exact ⟨fuel', m', m, hm', hr', rfl⟩

/-- Each child node of a built node carries the parent id of its enclosing
node. -/
theorem children_parent_link {all : List CommentRow} {lk : Nat → Nat}
    (fuel : Nat) (c : CommentRow) :
    ∀ ch ∈ (buildNode all lk fuel c).children,
      ch.parentId = some (buildNode all lk fuel c).nid := by
  intro ch hch
  cases fuel with
  | zero =>
      rw [buildNode_zero, children_mkNode] at hch
      simp at hch
  | succ fuel =>
      rw [buildNode_succ, children_mkNode, List.mem_map] at hch
      obtain ⟨m, hm, rfl⟩ := hch
      rw [List.mem_filter] at hm
      have hmc : parentNodeOf all m = some c := eq_of_beq hm.2
      unfold parentNodeOf findComment at hmc
      rw [nid_buildNode, parentId_buildNode]
      cases hp : m.parent with
      | none => rw [hp] at hmc; exact Option.noConfusion hmc
      | some p =>
          rw [hp] at hmc
          have hmc' : (if p = 0 then none
              else List.find? (fun c => c.cid == p) all) = some c := hmc
          by_cases hp0 : p = 0
          · rw [if_pos hp0] at hmc'
            exact Option.noConfusion hmc'
          · rw [if_neg hp0] at hmc'
            have hcp : c.cid = p := by simpa using List.find?_some hmc'
            rw [hcp]

/-- Children lists inherit the ascending creation-time order of the fetched
comment list. -/
theorem children_sorted {all : List CommentRow} {lk : Nat → Nat}
    (hs : all.Pairwise (fun a b => a.createdAt ≤ b.createdAt))
    (fuel : Nat) (c : CommentRow) :
    (buildNode all lk fuel c).children.Pairwise
      (fun a b => a.createdAt ≤ b.createdAt) := by
  cases fuel with
  | zero => rw [buildNode_zero, children_mkNode]; simp
  | succ fuel =>
      rw [buildNode_succ, children_mkNode]
      rw [List.pairwise_map]
      simp only [createdAt_buildNode]
      exact List.Pairwise.filter _ hs

/-- The root list inherits the ascending creation-time order. -/
theorem roots_sorted {all : List CommentRow} {lk : Nat → Nat}
    (hs : all.Pairwise (fun a b => a.createdAt ≤ b.createdAt)) :
    (buildForest all lk).Pairwise (fun a b => a.createdAt ≤ b.createdAt) := by
  unfold buildForest
  rw [List.pairwise_map]
  simp only [createdAt_buildNode]
  exact List.Pairwise.filter _ hs

/-! ### Facts about the comment queryset and the view wrapper -/

theorem commentsQs_sorted (s : Store) (pk : Nat) :
    (commentsQs s pk).Pairwise (fun a b => a.createdAt ≤ b.createdAt) := by
  have htot : IsTotal CommentRow (fun a b => a.createdAt ≤ b.createdAt) :=
    ⟨fun a b => Nat.le_total a.createdAt b.createdAt⟩
  have htr : IsTrans CommentRow (fun a b => a.createdAt ≤ b.createdAt) :=
    ⟨fun a b c hab hbc => Nat.le_trans hab hbc⟩
  exact @List.sorted_insertionSort _ _ _ htot htr _

theorem mem_commentsQs {s : Store} {pk : Nat} {c : CommentRow} :
    c ∈ commentsQs s pk ↔ c ∈ s.comments ∧ c.postId = pk := by
  unfold commentsQs
  rw [(List.perm_insertionSort _ _).mem_iff, List.mem_filter]
  constructor
  · rintro ⟨h1, h2⟩
    exact ⟨h1, by simpa using h2⟩
  · rintro ⟨h1, h2⟩
    exact ⟨h1, by simpa using h2⟩

theorem commentsQs_nodup_ids (s : Store) (pk : Nat)
    (hN : (s.comments.map CommentRow.cid).Nodup) :
    ((commentsQs s pk).map CommentRow.cid).Nodup := by
  have hperm := (List.perm_insertionSort
    (fun a b : CommentRow => a.createdAt ≤ b.createdAt)
    (s.comments.filter (fun c => c.postId == pk))).map CommentRow.cid
  have hsub : ((s.comments.filter (fun c => c.postId == pk)).map CommentRow.cid).Sublist
      (s.comments.map CommentRow.cid) :=
    List.Sublist.map _ (List.filter_sublist _)
  unfold commentsQs
  exact (hsub.nodup hN).perm hperm.symm

theorem postDetail_some {s : Store} {pk : Nat} {resp : PostDetailResp}
    (h : postDetail s pk = some resp) :
    resp.comments = buildForest (commentsQs s pk) (likeCountOf s.commentLikes) := by
  unfold postDetail at h
  cases hf : s.posts.find? (fun p => p.pid == pk) with
  | none => rw [hf] at h; exact Option.noConfusion h
  | some p =>
      rw [hf] at h
      have hpk : p.pid = pk := by simpa using List.find?_some hf
      injection h with h
      rw [← h, ← hpk]

/-- A `≤`-sorted list places strictly-earlier elements strictly before:
the indexed reading of "C1 precedes C2". -/
theorem lt_index_of_pairwise_le {l : List Node}
    (h : l.Pairwise (fun a b => a.createdAt ≤ b.createdAt)) :
    ∀ i j : Fin l.length,
      (l.get i).createdAt < (l.get j).createdAt → (i : Nat) < (j : Nat) := by
  intro i j hlt
  by_contra hij
  have hji : (j : Nat) ≤ (i : Nat) := Nat.le_of_not_lt hij
  rcases Nat.lt_or_ge (j : Nat) (i : Nat) with hlt' | hge
  · have := List.pairwise_iff_get.mp h j i hlt'
    exact absurd hlt (Nat.not_lt_of_le this)
  · have : (i : Nat) = (j : Nat) := Nat.le_antisymm hge hji
    have : i = j := Fin.ext this
    rw [this] at hlt
    exact Nat.lt_irrefl _ hlt

/-- A comment whose truthy parent id resolves to no loaded comment is
appended neither to `root` nor to any children list: its id is absent from
the whole forest. -/
theorem dangling_not_in_forest {all : List CommentRow} {lk : Nat → Nat}
    (hN : (all.map CommentRow.cid).Nodup) {c : CommentRow} (hc : c ∈ all)
    (ht : truthyId c.parent = true) (hdang : parentNodeOf all c = none) :
    c.cid ∉ forestIds (buildForest all lk) := by
  intro hx
  unfold forestIds buildForest at hx
  rw [mem_idsList] at hx
  obtain ⟨n, hn, hxn⟩ := hx
  rw [List.mem_map] at hn
  obtain ⟨m, hm, rfl⟩ := hn
  rw [List.mem_filter] at hm
  obtain ⟨w, k, hw, hwx, _, hanc⟩ := mem_ids_buildNode hm.1 hxn
  have hwc : w = c := List.inj_on_of_nodup_map hN hw hc hwx
  subst hwc
  cases k with
  | zero =>
      have hwm : w = m := by simpa using hanc
      have htm : truthyId m.parent = false := by simpa using hm.2
      rw [hwm] at ht
      rw [ht] at htm
      exact Bool.noConfusion htm
  | succ k =>
      rw [ancIter_succ_of_no_parent all k hdang] at hanc
      exact Option.noConfusion hanc

/-- C1, as the code behaves at the spec's own worked example: post 10 has
comments 1 (root, t=1), 2 (parent 1, t=2), 3 (t=3, parent id 99, which
does not exist).  The claim expects roots `[1 (child 2), 3]`; the code
returns the single root 1 with child 2, and comment 3 appears nowhere in
the forest (its ids are exactly `[1, 2]`). -/
theorem buildTree_drops_dangling_at_example :
    ((commentsQs exStore 10).map (fun c => (c.cid, c.parent)) =
      [(1, none), (2, some 1), (3, some 99)]) ∧
    (exStore.comments.any (fun c => c.cid == 99) = false) ∧
    ((postDetail exStore 10).map (fun resp => forestIds resp.comments) =
      some [1, 2]) :=
  ⟨rfl, rfl, rfl⟩

/-- C1 (amended): a loaded comment whose non-null parent id matches no
comment loaded for the same post is omitted from the returned forest
entirely — it is neither a root nor any node's child. -/
theorem dangling_parent_comment_omitted (s : Store) (pk : Nat)
    (resp : PostDetailResp) (c : CommentRow)
    (hN : (s.comments.map CommentRow.cid).Nodup)
    (hc : c ∈ s.comments) (hcp : c.postId = pk)
    (ht : truthyId c.parent = true)
    (hdang : ∀ m ∈ s.comments, m.postId = pk → some m.cid ≠ c.parent)
    (hresp : postDetail s pk = some resp) :
    c.cid ∉ forestIds resp.comments := by
  rw [postDetail_some hresp]
  have hq := commentsQs_nodup_ids s pk hN
  have hcq : c ∈ commentsQs s pk := mem_commentsQs.mpr ⟨hc, hcp⟩
  refine dangling_not_in_forest hq hcq ht ?_
  cases hp : c.parent with
  | none => simp [truthyId, hp] at ht
  | some p =>
      by_cases hp0 : p = 0
      · simp [truthyId, hp, hp0] at ht
      · unfold parentNodeOf findComment
        rw [hp]
        show (if p = 0 then none
          else List.find? (fun m => m.cid == p) (commentsQs s pk)) = none
        rw [if_neg hp0, List.find?_eq_none]
        intro m hm hbeq
        obtain ⟨hm1, hm2⟩ := mem_commentsQs.mp hm
        have hmp : m.cid = p := by simpa using hbeq
        exact hdang m hm1 hm2 (by rw [hmp, hp])

/-- C4: in the returned forest, both the root list and every node's
children list are in ascending creation-time order — a comment created
strictly earlier than a sibling strictly precedes it. -/
theorem buildTree_siblings_in_creation_order (s : Store) (pk : Nat)
    (resp : PostDetailResp) (hresp : postDetail s pk = some resp) :
    (∀ i j : Fin resp.comments.length,
       (resp.comments.get i).createdAt < (resp.comments.get j).createdAt →
       (i : Nat) < (j : Nat)) ∧
    (∀ n ∈ subnodesList resp.comments, ∀ i j : Fin n.children.length,
       (n.children.get i).createdAt < (n.children.get j).createdAt →
       (i : Nat) < (j : Nat)) := by
  rw [postDetail_some hresp]
  constructor
  · exact lt_index_of_pairwise_le (roots_sorted (commentsQs_sorted s pk))
  · intro n hn
    obtain ⟨fuel, m, r, hm, hr, rfl⟩ := subnode_forest hn
    exact lt_index_of_pairwise_le (children_sorted (commentsQs_sorted s pk) fuel m)

/-- C5: the post-detail read answers 404 exactly when no post carries the
requested id, and succeeds otherwise whatever the comment set holds. -/
theorem postDetail_none_iff (s : Store) (pk : Nat) :
    postDetail s pk = none ↔ ∀ p ∈ s.posts, p.pid ≠ pk := by
  unfold postDetail
  cases hf : s.posts.find? (fun p => p.pid == pk) with
  | none =>
      constructor
      · intro _ p hp hpk
        have := List.find?_eq_none.mp hf p hp
        simp [hpk] at this
      · intro _
        rfl
  | some p =>
      constructor
      · intro h
        exact Option.noConfusion h
      · intro hall
        have hmem : p ∈ s.posts := List.mem_of_find?_eq_some hf
        have hpk : p.pid = pk := by simpa using List.find?_some hf
        exact absurd hpk (hall p hmem)

/-- C7: with unique comment ids, the returned forest repeats no node, each
child node's parent field names its enclosing node, and no node's id
recurs anywhere below it (no cycle survives into the output). -/
theorem buildTree_forest_invariants (s : Store) (pk : Nat)
    (resp : PostDetailResp) (hN : (s.comments.map CommentRow.cid).Nodup)
    (hresp : postDetail s pk = some resp) :
    (forestIds resp.comments).Nodup ∧
    (∀ n ∈ subnodesList resp.comments, ∀ ch ∈ n.children,
       ch.parentId = some n.nid) ∧
    (∀ n ∈ subnodesList resp.comments, n.nid ∉ idsList n.children) := by
  have hq := commentsQs_nodup_ids s pk hN
  rw [postDetail_some hresp]
  refine ⟨nodup_forestIds hq, ?_, ?_⟩
  · intro n hn ch hch
    obtain ⟨fuel, m, r, hm, hr, rfl⟩ := subnode_forest hn
    exact children_parent_link fuel m ch hch
  · intro n hn
    obtain ⟨fuel, m, r, hm, hr, rfl⟩ := subnode_forest hn
    have hnd : (buildNode (commentsQs s pk) (likeCountOf s.commentLikes) fuel m).ids.Nodup :=
      nodup_ids_buildNode hq fuel hm hr
    rw [ids_eq] at hnd
    exact (List.nodup_cons.mp hnd).1

/-- C9: every returned root carries a null parent field (given the
datastore invariant that no stored parent reference is the impossible
id 0 — Django primary keys are positive). -/
theorem buildTree_roots_null_parent (s : Store) (pk : Nat)
    (resp : PostDetailResp) (h0 : ∀ c ∈ s.comments, c.parent ≠ some 0)
    (hresp : postDetail s pk = some resp) :
    ∀ r ∈ resp.comments, r.parentId = none := by
  rw [postDetail_some hresp]
  intro r hr
  unfold buildForest at hr
  rw [List.mem_map] at hr
  obtain ⟨m, hm, rfl⟩ := hr
  rw [List.mem_filter] at hm
  have ht : truthyId m.parent = false := by simpa using hm.2
  rw [parentId_buildNode]
  cases hp : m.parent with
  | none => rfl
  | some p =>
      have hp0 : p = 0 := by
        by_contra hne
        simp [truthyId, hp, hne] at ht
      have hmem : m ∈ s.comments := (mem_commentsQs.mp hm.1).1
      exact absurd (by rw [hp, hp0]) (h0 m hmem)

-- a store whose post 10 carries two root comments, created at t=1 and t=2.
def exStore2 : Store :=
  { users := [{ uid := 1, username := "alice" }]
    posts := [{ pid := 10, authorId := 1, authorUsername := "alice",
                content := "p", createdAt := 0 }]
    comments := [ { cid := 1, postId := 10, authorId := 1,
                    authorUsername := "alice", parent := none, content := "a",
                    createdAt := 1 },
                  { cid := 2, postId := 10, authorId := 1,
                    authorUsername := "alice", parent := none, content := "b",
                    createdAt := 2 } ]
    postLikes := []
    commentLikes := [] }

theorem dangling_parent_comment_omitted_witness :
    (3 : Nat) ∉ forestIds ((postDetail exStore 10).getD default).comments :=
  dangling_parent_comment_omitted exStore 10 ((postDetail exStore 10).getD default)
    { cid := 3, postId := 10, authorId := 1, authorUsername := "alice",
      parent := some 99, content := "c3", createdAt := 3 }
    (by decide) (by decide) rfl rfl (by decide) rfl

theorem buildTree_siblings_in_creation_order_witness :
    ((((postDetail exStore2 10).getD default).comments.get ⟨0, by decide⟩).createdAt <
        (((postDetail exStore2 10).getD default).comments.get ⟨1, by decide⟩).createdAt) ∧
    (0 : Nat) < 1 :=
  ⟨by decide,
    (buildTree_siblings_in_creation_order exStore2 10
      ((postDetail exStore2 10).getD default) rfl).1
        ⟨0, by decide⟩ ⟨1, by decide⟩ (by decide)⟩

theorem postDetail_none_iff_witness : postDetail exStore 99 = none :=
  (postDetail_none_iff exStore 99).mpr (by decide)

theorem buildTree_forest_invariants_witness :
    (forestIds ((postDetail exStore 10).getD default).comments).Nodup :=
  (buildTree_forest_invariants exStore 10 ((postDetail exStore 10).getD default)
    (by decide) rfl).1

theorem buildTree_roots_null_parent_witness :
    (((postDetail exStore 10).getD default).comments.get ⟨0, by decide⟩).parentId
      = none :=
  buildTree_roots_null_parent exStore 10 ((postDetail exStore 10).getD default)
    (by decide) rfl
    (((postDetail exStore 10).getD default).comments.get ⟨0, by decide⟩)
    (List.get_mem _ 0 (by decide))

/-- C8: the two read views mutate nothing: in state-passing form each hands
back the store it was given, every entity table unchanged. -/
theorem reads_are_pure (s : Store) (pk cutoff : Nat) :
    (postDetailOp s pk).1 = s ∧ (leaderboardOp s cutoff).1 = s ∧
    (postDetailOp s pk).1.users = s.users ∧
    (postDetailOp s pk).1.posts = s.posts ∧
    (postDetailOp s pk).1.comments = s.comments ∧
    (postDetailOp s pk).1.postLikes = s.postLikes ∧
    (postDetailOp s pk).1.commentLikes = s.commentLikes ∧
    (leaderboardOp s cutoff).1.users = s.users ∧
    (leaderboardOp s cutoff).1.posts = s.posts ∧
    (leaderboardOp s cutoff).1.comments = s.comments ∧
    (leaderboardOp s cutoff).1.postLikes = s.postLikes ∧
    (leaderboardOp s cutoff).1.commentLikes = s.commentLikes :=
  ⟨rfl, rfl, rfl, rfl, rfl, rfl, rfl, rfl, rfl, rfl, rfl, rfl⟩

theorem likePost_notFound {s : Store} {u pk newId now : Nat}
    (hf : s.posts.find? (fun p => p.pid == pk) = none) :
    likePost s u pk newId now = (s, .notFound) := by
  unfold likePost
  rw [hf]

theorem likePost_found {s : Store} {u pk newId now : Nat} {p : PostRow}
    (hf : s.posts.find? (fun p => p.pid == pk) = some p) :
    likePost s u pk newId now =
      if s.postLikes.any (fun l => l.userId == u && l.postId == p.pid) then
        (s, .alreadyLiked)
      else
        ({ s with postLikes :=
            s.postLikes ++ [{ plid := newId, userId := u,
                              postId := p.pid, createdAt := now }] },
         .liked) := by
  unfold likePost
  rw [hf]

theorem likeComment_notFound {s : Store} {u pk newId now : Nat}
    (hf : s.comments.find? (fun c => c.cid == pk) = none) :
    likeComment s u pk newId now = (s, .notFound) := by
  unfold likeComment
  rw [hf]

theorem likeComment_found {s : Store} {u pk newId now : Nat} {c : CommentRow}
    (hf : s.comments.find? (fun c => c.cid == pk) = some c) :
    likeComment s u pk newId now =
      if s.commentLikes.any (fun l => l.userId == u && l.commentId == c.cid) then
        (s, .alreadyLiked)
      else
        ({ s with commentLikes :=
            s.commentLikes ++ [{ clid := newId, userId := u,
                                 commentId := c.cid, createdAt := now }] },
         .liked) := by
  unfold likeComment
  rw [hf]

theorem nodup_pairs_append_post {L : List PostLikeRow} {a : PostLikeRow}
    (hN : (L.map (fun l => (l.userId, l.postId))).Nodup)
    (hnot : L.any (fun l => l.userId == a.userId && l.postId == a.postId) = false) :
    ((L ++ [a]).map (fun l => (l.userId, l.postId))).Nodup := by
  rw [List.map_append, List.nodup_append]
  refine ⟨hN, by simp, ?_⟩
  intro x hx hx'
  simp only [List.map_cons, List.map_nil, List.mem_singleton] at hx'
  rw [List.mem_map] at hx
  obtain ⟨l, hl, rfl⟩ := hx
  have h1 : l.userId = a.userId := congrArg Prod.fst hx'
  have h2 : l.postId = a.postId := congrArg Prod.snd hx'
  have hc : L.any (fun l => l.userId == a.userId && l.postId == a.postId) = true :=
    List.any_eq_true.mpr ⟨l, hl, by simp [h1, h2]⟩
  rw [hc] at hnot
  exact Bool.noConfusion hnot

theorem nodup_pairs_append_comment {L : List CommentLikeRow} {a : CommentLikeRow}
    (hN : (L.map (fun l => (l.userId, l.commentId))).Nodup)
    (hnot : L.any (fun l => l.userId == a.userId && l.commentId == a.commentId) = false) :
    ((L ++ [a]).map (fun l => (l.userId, l.commentId))).Nodup := by
  rw [List.map_append, List.nodup_append]
  refine ⟨hN, by simp, ?_⟩
  intro x hx hx'
  simp only [List.map_cons, List.map_nil, List.mem_singleton] at hx'
  rw [List.mem_map] at hx
  obtain ⟨l, hl, rfl⟩ := hx
  have h1 : l.userId = a.userId := congrArg Prod.fst hx'
  have h2 : l.commentId = a.commentId := congrArg Prod.snd hx'
  have hc : L.any (fun l => l.userId == a.userId && l.commentId == a.commentId) = true :=
    List.any_eq_true.mpr ⟨l, hl, by simp [h1, h2]⟩
  rw [hc] at hnot
  exact Bool.noConfusion hnot

/-- C6: a like on a target that already has a like row for the same
(user, target) pair is rejected as `alreadyLiked` with the store returned
unchanged, and each like insert preserves at-most-one-row-per-pair. -/
theorem duplicate_like_rejected (s : Store) (u pk newId now : Nat) :
    ((∃ p ∈ s.posts, p.pid = pk) →
      (∃ l ∈ s.postLikes, l.userId = u ∧ l.postId = pk) →
      likePost s u pk newId now = (s, .alreadyLiked)) ∧
    ((∃ c ∈ s.comments, c.cid = pk) →
      (∃ l ∈ s.commentLikes, l.userId = u ∧ l.commentId = pk) →
      likeComment s u pk newId now = (s, .alreadyLiked)) ∧
    ((s.postLikes.map (fun l => (l.userId, l.postId))).Nodup →
      ((likePost s u pk newId now).1.postLikes.map
        (fun l => (l.userId, l.postId))).Nodup) ∧
    ((s.commentLikes.map (fun l => (l.userId, l.commentId))).Nodup →
      ((likeComment s u pk newId now).1.commentLikes.map
        (fun l => (l.userId, l.commentId))).Nodup) := by
  refine ⟨?_, ?_, ?_, ?_⟩
  · rintro ⟨p0, hp0, hp0k⟩ ⟨l, hl, hlu, hlk⟩
    cases hf : s.posts.find? (fun p => p.pid == pk) with
    | none =>
        have := List.find?_eq_none.mp hf p0 hp0
        simp [hp0k] at this
    | some p =>
        have hpk : p.pid = pk := by simpa using List.find?_some hf
        have hany : s.postLikes.any
            (fun l' => l'.userId == u && l'.postId == p.pid) = true :=
          List.any_eq_true.mpr ⟨l, hl, by simp [hlu, hlk, hpk]⟩
        rw [likePost_found hf, if_pos hany]
  · rintro ⟨c0, hc0, hc0k⟩ ⟨l, hl, hlu, hlk⟩
    cases hf : s.comments.find? (fun c => c.cid == pk) with
    | none =>
        have := List.find?_eq_none.mp hf c0 hc0
        simp [hc0k] at this
    | some c =>
        have hck : c.cid = pk := by simpa using List.find?_some hf
        have hany : s.commentLikes.any
            (fun l' => l'.userId == u && l'.commentId == c.cid) = true :=
          List.any_eq_true.mpr ⟨l, hl, by simp [hlu, hlk, hck]⟩
        rw [likeComment_found hf, if_pos hany]
  · intro hN
    cases hf : s.posts.find? (fun p => p.pid == pk) with
    | none => rw [likePost_notFound hf]; exact hN
    | some p =>
        rw [likePost_found hf]
        cases hany : s.postLikes.any
            (fun l' => l'.userId == u && l'.postId == p.pid) with
        | true => exact hN
        | false => exact nodup_pairs_append_post hN hany
  · intro hN
    cases hf : s.comments.find? (fun c => c.cid == pk) with
    | none => rw [likeComment_notFound hf]; exact hN
    | some c =>
        rw [likeComment_found hf]
        cases hany : s.commentLikes.any
            (fun l' => l'.userId == u && l'.commentId == c.cid) with
        | true => exact hN
        | false => exact nodup_pairs_append_comment hN hany

theorem duplicate_like_rejected_witness :
    likePost exStore 2 10 7 9 = (exStore, .alreadyLiked) :=
  (duplicate_like_rejected exStore 2 10 7 9).1 (by decide)
    ⟨{ plid := 1, userId := 2, postId := 10, createdAt := 5 }, by decide, rfl, rfl⟩

/-- C3: the leaderboard never exceeds five rows and is ordered by
descending karma. -/
theorem leaderboard_bounded_and_sorted (s : Store) (cutoff : Nat) :
    (leaderboard s cutoff).length ≤ 5 ∧
    (leaderboard s cutoff).Pairwise (fun a b => b.karma ≤ a.karma) := by
  constructor
  · unfold leaderboard
    rw [List.length_take]
    exact min_le_left _ _
  · unfold leaderboard
    refine List.Pairwise.sublist (List.take_sublist _ _) ?_
    have htot : IsTotal LBRow (fun a b => b.karma ≤ a.karma) :=
      ⟨fun a b => le_total b.karma a.karma⟩
    have htr : IsTrans LBRow (fun a b => b.karma ≤ a.karma) :=
      ⟨fun a b c h1 h2 => le_trans h2 h1⟩
    exact @List.sorted_insertionSort _ _ _ htot htr _

/-! ### The karma arithmetic (C2/C10) -/

/-- Sum of the weight column of an event list. -/
def weightSum (evs : List (Nat × Int × Nat)) : Int :=
  (evs.map (fun e => e.2.1)).sum

/-- The claim's first counter: the number of `PostLike` rows on posts
authored by `uid` whose like timestamp lies in the window. -/
def qualifyingPostLikes (s : Store) (cutoff uid : Nat) : Nat :=
  (s.postLikes.filter (fun pl => decide (cutoff ≤ pl.createdAt) &&
    s.posts.any (fun p => p.pid == pl.postId && p.authorId == uid))).length

/-- The claim's second counter: the number of `CommentLike` rows on
comments authored by `uid` whose like timestamp lies in the window. -/
def qualifyingCommentLikes (s : Store) (cutoff uid : Nat) : Nat :=
  (s.commentLikes.filter (fun cl => decide (cutoff ≤ cl.createdAt) &&
    s.comments.any (fun c => c.cid == cl.commentId && c.authorId == uid))).length

/-- With unique keys, a key-filter keeps at most one row. -/
theorem length_filter_key_le_one {γ : Type} {targets : List γ} {tid : γ → Nat}
    (hN : (targets.map tid).Nodup) (x : Nat) :
    (targets.filter (fun p => tid p == x)).length ≤ 1 := by
  set L := targets.filter (fun p => tid p == x) with hLdef
  have h1 : ∀ b ∈ L.map tid, b = x := by
    intro b hb
    rw [List.mem_map] at hb
    obtain ⟨p, hp, rfl⟩ := hb
    have := (List.mem_filter.mp hp).2
    simpa using this
  have h2 : (L.map tid).Nodup :=
    (List.Sublist.map tid (List.filter_sublist _)).nodup hN
  have h3 : L.map tid = List.replicate (L.map tid).length x :=
    List.eq_replicate_of_mem h1
  rw [h3, List.nodup_replicate] at h2
  simpa using h2

/-- One like row contributes its weight exactly when its timestamp
qualifies and some target row matches its key with the right author —
given unique target keys, so that the join cannot multiply it. -/
theorem weightSum_single {γ : Type} {targets : List γ} {tid : γ → Nat}
    (author : γ → Nat) (hN : (targets.map tid).Nodup) (t : Nat) (w : Int)
    (cutoff uid x : Nat) :
    weightSum ((((targets.filter (fun p => tid p == x)).map
        (fun p => (author p, w, t))).filter
          (fun e => decide (cutoff ≤ e.2.2))).filter (fun e => e.1 == uid))
      = if (decide (cutoff ≤ t) &&
            targets.any (fun p => tid p == x && author p == uid)) = true
        then w else 0 := by
  have hlen := length_filter_key_le_one hN x
  cases hL : targets.filter (fun p => tid p == x) with
  | nil =>
      have hany : targets.any (fun p => tid p == x && author p == uid) = false := by
        rw [← Bool.not_eq_true, List.any_eq_true]
        rintro ⟨q, hq, hcond⟩
        have h1 : tid q = x := by
          have := (Bool.and_eq_true _ _).mp hcond
          simpa using this.1
        have : q ∈ targets.filter (fun p => tid p == x) :=
          List.mem_filter.mpr ⟨hq, by simp [h1]⟩
        rw [hL] at this
        simp at this
      rw [hany]
      simp [weightSum]
  | cons p tl =>
      have htl : tl = [] := by
        rw [hL] at hlen
        simp at hlen
        exact hlen
      subst htl
      have hp : p ∈ targets.filter (fun q => tid q == x) := by
        rw [hL]
        exact List.mem_cons_self _ _
      have hpt : p ∈ targets := (List.mem_filter.mp hp).1
      have hpx : tid p = x := by
        have := (List.mem_filter.mp hp).2
        simpa using this
      have hany : targets.any (fun q => tid q == x && author q == uid)
          = (author p == uid) := by
        cases hau : (author p == uid) with
        | true =>
            exact List.any_eq_true.mpr ⟨p, hpt, by simp [hpx, eq_of_beq hau]⟩
        | false =>
            rw [← Bool.not_eq_true, List.any_eq_true]
            rintro ⟨q, hq, hcond⟩
            obtain ⟨hq1, hq2⟩ := (Bool.and_eq_true _ _).mp hcond
            have : q ∈ targets.filter (fun r => tid r == x) :=
              List.mem_filter.mpr ⟨hq, hq1⟩
            rw [hL] at this
            have hqp : q = p := by simpa using this
            rw [hqp] at hq2
            rw [hq2] at hau
            exact Bool.noConfusion hau
      rw [hany]
      by_cases hcut : cutoff ≤ t
      · cases hau : (author p == uid) with
        | true =>
            have : author p = uid := eq_of_beq hau
            simp [weightSum, hcut, this]
        | false =>
            have : ¬(author p = uid) := by
              intro h
              rw [h] at hau
              simp at hau
            simp [weightSum, hcut, this]
      · simp [weightSum, hcut]

/-- Summing the unioned, window-filtered, author-grouped weighted stream
counts each qualifying like row exactly once with weight `w`. -/
theorem weightSum_stream {γ : Type} {β : Type} (likes : List β)
    {targets : List γ} {tid : γ → Nat} (author : γ → Nat) (key ts : β → Nat)
    (hN : (targets.map tid).Nodup) (w : Int) (cutoff uid : Nat) :
    weightSum (((likes.flatMap (fun l =>
        (targets.filter (fun p => tid p == key l)).map
          (fun p => (author p, w, ts l)))).filter
            (fun e => decide (cutoff ≤ e.2.2))).filter (fun e => e.1 == uid))
      = w * ((likes.filter (fun l => decide (cutoff ≤ ts l) &&
          targets.any (fun p => tid p == key l && author p == uid))).length : Int) := by
  induction likes with
  | nil => simp [weightSum]
  | cons l ls ih =>
      rw [List.flatMap_cons, List.filter_append, List.filter_append]
      have happ : ∀ (a b : List (Nat × Int × Nat)),
          weightSum (a ++ b) = weightSum a + weightSum b := by
        intro a b
        unfold weightSum
        rw [List.map_append, List.sum_append]
      rw [happ, ih, weightSum_single author hN (ts l) w cutoff uid (key l)]
      rw [List.filter_cons]
      cases hcond : (decide (cutoff ≤ ts l) &&
          targets.any (fun p => tid p == key l && author p == uid)) with
      | true =>
          simp only [if_true, eq_self_iff_true, List.length_cons]
          push_cast
          ring
      | false =>
          simp

/-- The grouped sum over the unioned stream is exactly the claim's
weighted count formula (unique post/comment primary keys keep the joins
from multiplying rows). -/
theorem karmaOf_eq (s : Store) (cutoff uid : Nat)
    (hp : (s.posts.map PostRow.pid).Nodup)
    (hc : (s.comments.map CommentRow.cid).Nodup) :
    karmaOf s cutoff uid
      = 5 * (qualifyingPostLikes s cutoff uid : Int)
        + 1 * (qualifyingCommentLikes s cutoff uid : Int) := by
  have h1 : weightSum (((postEvents s).filter
        (fun e => decide (cutoff ≤ e.2.2))).filter (fun e => e.1 == uid))
      = 5 * (qualifyingPostLikes s cutoff uid : Int) :=
    weightSum_stream s.postLikes PostRow.authorId PostLikeRow.postId
      PostLikeRow.createdAt hp 5 cutoff uid
  have h2 : weightSum (((commentEvents s).filter
        (fun e => decide (cutoff ≤ e.2.2))).filter (fun e => e.1 == uid))
      = 1 * (qualifyingCommentLikes s cutoff uid : Int) :=
    weightSum_stream s.commentLikes CommentRow.authorId CommentLikeRow.commentId
      CommentLikeRow.createdAt hc 1 cutoff uid
  have hsplit : karmaOf s cutoff uid
      = weightSum (((postEvents s).filter
          (fun e => decide (cutoff ≤ e.2.2))).filter (fun e => e.1 == uid))
        + weightSum (((commentEvents s).filter
          (fun e => decide (cutoff ≤ e.2.2))).filter (fun e => e.1 == uid)) := by
    unfold karmaOf windowEvents allEvents weightSum
    rw [List.filter_append, List.filter_append, List.map_append, List.sum_append]
  rw [hsplit, h1, h2]

theorem mem_groupRows_of_mem_leaderboard {s : Store} {cutoff : Nat} {row : LBRow}
    (h : row ∈ leaderboard s cutoff) :
    ∃ u ∈ s.users,
      (windowEvents s cutoff).any (fun e => e.1 == u.uid) = true ∧
      row = { userId := u.uid, username := u.username,
              karma := karmaOf s cutoff u.uid } := by
  unfold leaderboard at h
  have h1 := (List.take_sublist 5 _).subset h
  have h2 : row ∈ groupRows s cutoff :=
    (List.perm_insertionSort _ _).mem_iff.mp h1
  unfold groupRows at h2
  rw [List.mem_map] at h2
  obtain ⟨u, hu, rfl⟩ := h2
  rw [List.mem_filter] at hu
  exact ⟨u, hu.1, hu.2, rfl⟩

/-- Every unioned event carries weight 5 (from a post like) or 1 (from a
comment like). -/
theorem weight_of_mem_allEvents {s : Store} {e : Nat × Int × Nat}
    (h : e ∈ allEvents s) : e.2.1 = 5 ∨ e.2.1 = 1 := by
  unfold allEvents postEvents commentEvents at h
  rw [List.mem_append] at h
  rcases h with h | h <;> rw [List.mem_flatMap] at h
  · obtain ⟨pl, _, hm⟩ := h
    rw [List.mem_map] at hm
    obtain ⟨p, _, rfl⟩ := hm
    exact Or.inl rfl
  · obtain ⟨cl, _, hm⟩ := h
    rw [List.mem_map] at hm
    obtain ⟨c, _, rfl⟩ := hm
    exact Or.inr rfl

theorem one_le_sum_of_weights (l : List Int) (hall : ∀ x ∈ l, 1 ≤ x)
    (hne : l ≠ []) : 1 ≤ l.sum := by
  induction l with
  | nil => exact absurd rfl hne
  | cons a t ih =>
      rw [List.sum_cons]
      have ha := hall a (List.mem_cons_self _ _)
      cases t with
      | nil => simpa using ha
      | cons b t' =>
          have ht := ih (fun x hx => hall x (List.mem_cons_of_mem _ hx)) (by simp)
          linarith

/-- A window event for a user forces at least one qualifying like row for
that user. -/
theorem qualifying_pos_of_event {s : Store} {cutoff : Nat} {e : Nat × Int × Nat}
    (he : e ∈ windowEvents s cutoff) :
    0 < qualifyingPostLikes s cutoff e.1 + qualifyingCommentLikes s cutoff e.1 := by
  have hmem := List.mem_filter.mp
    (show e ∈ (allEvents s).filter (fun e => decide (cutoff ≤ e.2.2)) from he)
  obtain ⟨hall, hcut⟩ := hmem
  unfold allEvents at hall
  rw [List.mem_append] at hall
  rcases hall with h | h
  · unfold postEvents at h
    rw [List.mem_flatMap] at h
    obtain ⟨pl, hpl, hm⟩ := h
    rw [List.mem_map] at hm
    obtain ⟨p, hpf, hep⟩ := hm
    have hp1 : p ∈ s.posts := (List.mem_filter.mp hpf).1
    have hp2 : p.pid = pl.postId := by
      simpa using (List.mem_filter.mp hpf).2
    have hauth : p.authorId = e.1 := by rw [← hep]
    have hts : pl.createdAt = e.2.2 := by rw [← hep]
    have hq : pl ∈ s.postLikes.filter (fun pl => decide (cutoff ≤ pl.createdAt) &&
        s.posts.any (fun q => q.pid == pl.postId && q.authorId == e.1)) := by
      refine List.mem_filter.mpr ⟨hpl, ?_⟩
      rw [Bool.and_eq_true]
      refine ⟨by rw [hts]; exact hcut, ?_⟩
      exact List.any_eq_true.mpr ⟨p, hp1, by simp [hp2, hauth]⟩
    have hpos := List.length_pos_of_mem hq
    unfold qualifyingPostLikes
    omega
  · unfold commentEvents at h
    rw [List.mem_flatMap] at h
    obtain ⟨cl, hcl, hm⟩ := h
    rw [List.mem_map] at hm
    obtain ⟨c, hcf, hec⟩ := hm
    have hc1 : c ∈ s.comments := (List.mem_filter.mp hcf).1
    have hc2 : c.cid = cl.commentId := by
      simpa using (List.mem_filter.mp hcf).2
    have hauth : c.authorId = e.1 := by rw [← hec]
    have hts : cl.createdAt = e.2.2 := by rw [← hec]
    have hq : cl ∈ s.commentLikes.filter (fun cl => decide (cutoff ≤ cl.createdAt) &&
        s.comments.any (fun d => d.cid == cl.commentId && d.authorId == e.1)) := by
      refine List.mem_filter.mpr ⟨hcl, ?_⟩
      rw [Bool.and_eq_true]
      refine ⟨by rw [hts]; exact hcut, ?_⟩
      exact List.any_eq_true.mpr ⟨c, hc1, by simp [hc2, hauth]⟩
    have hpos := List.length_pos_of_mem hq
    unfold qualifyingCommentLikes
    omega

/-- C2: every returned row's karma is five times the user's qualifying
post-like count plus one times the qualifying comment-like count (each
like row counted once), and a user with zero qualifying likes in the
window appears in no row. -/
theorem leaderboard_karma_formula (s : Store) (cutoff : Nat)
    (hp : (s.posts.map PostRow.pid).Nodup)
    (hc : (s.comments.map CommentRow.cid).Nodup) :
    (∀ row ∈ leaderboard s cutoff,
       row.karma = 5 * (qualifyingPostLikes s cutoff row.userId : Int)
         + 1 * (qualifyingCommentLikes s cutoff row.userId : Int)) ∧
    (∀ uid : Nat, qualifyingPostLikes s cutoff uid = 0 →
       qualifyingCommentLikes s cutoff uid = 0 →
       ∀ row ∈ leaderboard s cutoff, row.userId ≠ uid) := by
  constructor
  · intro row hrow
    obtain ⟨u, hu, hany, rfl⟩ := mem_groupRows_of_mem_leaderboard hrow
    exact karmaOf_eq s cutoff u.uid hp hc
  · intro uid hq1 hq2 row hrow heq
    obtain ⟨u, hu, hany, rfl⟩ := mem_groupRows_of_mem_leaderboard hrow
    have huid : u.uid = uid := heq
    obtain ⟨e, he, hbeq⟩ := List.any_eq_true.mp hany
    have he1 : e.1 = uid := by rw [← huid]; exact eq_of_beq hbeq
    have := qualifying_pos_of_event he
    rw [he1, hq1, hq2] at this
    omega

theorem leaderboard_karma_formula_witness :
    ({ userId := 1, username := "alice", karma := 12 } : LBRow).karma
      = 5 * (qualifyingPostLikes exStore 0 1 : Int)
        + 1 * (qualifyingCommentLikes exStore 0 1 : Int) :=
  (leaderboard_karma_formula exStore 0 (by decide) (by decide)).1
    { userId := 1, username := "alice", karma := 12 } (by decide)

/-- C10: every returned karma score is an integer greater than or equal
to one — each contributing event weighs 5 or 1 and a surviving user has at
least one event. -/
theorem leaderboard_scores_ge_one (s : Store) (cutoff : Nat) :
    ∀ row ∈ leaderboard s cutoff, 1 ≤ row.karma := by
  intro row hrow
  obtain ⟨u, hu, hany, rfl⟩ := mem_groupRows_of_mem_leaderboard hrow
  show 1 ≤ karmaOf s cutoff u.uid
  obtain ⟨e, he, hbeq⟩ := List.any_eq_true.mp hany
  have hmem : e ∈ (windowEvents s cutoff).filter (fun e => e.1 == u.uid) :=
    List.mem_filter.mpr ⟨he, hbeq⟩
  refine one_le_sum_of_weights _ ?_ ?_
  · intro x hx
    rw [List.mem_map] at hx
    obtain ⟨e', he', rfl⟩ := hx
    have he'w : e' ∈ windowEvents s cutoff := (List.mem_filter.mp he').1
    have he'a : e' ∈ allEvents s :=
      (List.mem_filter.mp
        (show e' ∈ (allEvents s).filter (fun e => decide (cutoff ≤ e.2.2)) from he'w)).1
    rcases weight_of_mem_allEvents he'a with h | h
    · rw [h]
      norm_num
    · rw [h]
  · exact List.ne_nil_of_mem (List.mem_map_of_mem _ hmem)

theorem leaderboard_scores_ge_one_witness :
    1 ≤ ({ userId := 1, username := "alice", karma := 12 } : LBRow).karma :=
  leaderboard_scores_ge_one exStore 0
    { userId := 1, username := "alice", karma := 12 } (by decide)

end SocialCore
